import Mathlib

/-!
Verification of the Shor's-algorithm repository (Cirq / Qiskit / PyQuil variants).

This file gives a shallow embedding of the classical core shared by the three
source files `Cirq/Shors.py`, `Qiskit/Shors.py` and `Pyquil/Shors.py`:

* the modular-multiplication permutation matrix (`dynamic_permutation_matrix`),
* the basis-state semantics of the controlled modular-exponentiation gates,
* the explicit QFT gate sequence (`qft_pyquil`),
* the classical post-processing pipeline (sample → candidate period →
  validation → frequency table → selection → factor pair → outcome).

Machine integers of the source are modelled as `Nat`/`Int` (Python integers are
unbounded, so no wrap-around is involved); Python's `%` on `int` agrees with
`Int.emod` (result has the sign of the modulus); `fractions.Fraction` is
modelled by `ℚ` (both keep numerator/denominator in lowest terms with a
positive denominator).
-/

/-- Target index of column `y` of the permutation matrix built by
`dynamic_permutation_matrix` (`Cirq/Shors.py` lines 30–38, identically in the
Qiskit and PyQuil files): if `y < N` the `1` entry is placed in row
`(c * y) % N`, otherwise in row `y`.  The multiplier `c` is an arbitrary
Python integer, hence `ℤ`; `Int.emod` matches Python's `%` (nonnegative result
for a positive modulus). -/
def permTarget (c : ℤ) (N : ℕ) (y : ℕ) : ℕ :=
  if y < N then ((c * y) % (N : ℤ)).toNat else y

/-- Entry in row `r`, column `y` of the matrix `M` returned by
`dynamic_permutation_matrix(c, N, num_work_qubits)`.  The numpy array is
`dim × dim` with `dim = 2 ^ k`, initialized to zero; the loop sets, for each
column `y`, exactly the single entry `M[new_y, y] = 1` (resp. `M[y, y] = 1`),
so entry `(r, y)` is `1` exactly when `r` is the target row of column `y`.
The numpy dtype is `complex`, but every stored value is exactly `0` or `1`,
so entries are modelled in `ℕ`.  The width `k` only fixes the dimension; the
entry formula does not depend on it, exactly as in the source. -/
def dynamic_permutation_matrix (c : ℤ) (N k : ℕ) (r y : ℕ) : ℕ :=
  if r = permTarget c N y then 1 else 0

/-- Column-orthonormality (the claim's reading of "unitary: it is a permutation
matrix"): the inner product of any two columns of the `2^k × 2^k` matrix is `1`
on the diagonal and `0` off it.  Entries are real `0/1`, so conjugation is the
identity and the complex inner product is this natural-number sum. -/
def columnsOrthonormal (c : ℤ) (N k : ℕ) : Prop :=
  ∀ y1 ∈ Finset.range (2 ^ k), ∀ y2 ∈ Finset.range (2 ^ k),
    (∑ r ∈ Finset.range (2 ^ k),
      dynamic_permutation_matrix c N k r y1 * dynamic_permutation_matrix c N k r y2)
      = if y1 = y2 then 1 else 0

instance (c : ℤ) (N k : ℕ) : Decidable (columnsOrthonormal c N k) := by
  unfold columnsOrthonormal; infer_instance

/-- `minimalWidth N k` states that `k` is the minimal integer with `2 ^ k ≥ N`
(the spec's definition of the work-register width). -/
def minimalWidth (N k : ℕ) : Prop :=
  N ≤ 2 ^ k ∧ ∀ j < k, 2 ^ j < N

instance (N k : ℕ) : Decidable (minimalWidth N k) := by
  unfold minimalWidth; infer_instance

/-- The work-register width used when the circuit is constructed:
`work_qubits = max(min_work, 4)` (`Cirq/Shors.py` line 122, `Qiskit/Shors.py`
line 104).  The source computes `min_work = math.ceil(math.log(N, 2))`
(`required_work_qubits`, `Cirq/Shors.py` lines 12–18) in double-precision
floating point; the rounding of `math.log` is platform-`libm`-dependent and
deviates from the exact ceiling logarithm at some moduli, so that float value
has no shallow embedding and is kept as an explicit parameter `m`: only the
integer `max` with `4` is modelled. -/
def work_qubits (m : ℕ) : ℕ :=
  max m 4

/-- The natural-number form of the basis-state action of the permutation gate:
applying `dynamic_permutation_matrix c N k` to basis state `|w⟩` yields
`|(c * w) % N⟩` if `w < N` and `|w⟩` otherwise (for a nonnegative multiplier). -/
def permTargetN (c N w : ℕ) : ℕ :=
  if w < N then (c * w) % N else w

/-- The per-bit multiplier of `build_modular_exponentiation`
(`Cirq/Shors.py` line 59): `c_j = pow(b, 2 ** j, N)`. -/
def c_j (b N j : ℕ) : ℕ :=
  b ^ (2 ^ j) % N

/-- One controlled gate of `build_modular_exponentiation`: the gate for bit
`j` multiplies the work register by `c_j` mod `N` exactly when bit `j` of the
exponent-register value `x` is `1` (the control qubit), and fixes it
otherwise. -/
def modExpStep (b N x j w : ℕ) : ℕ :=
  if x.testBit j then permTargetN (c_j b N j) N w else w

/-- Work-register value after applying the controlled gates emitted by
`build_modular_exponentiation` for bits `j = 0, …, n-1` in increasing order
(the emission order of the loop at `Cirq/Shors.py` lines 58–63) to an initial
work-register value `w`, with exponent register holding `x`. -/
def modExpRun (b N x : ℕ) : ℕ → ℕ → ℕ
  | 0, w => w
  | n + 1, w => modExpStep b N x n (modExpRun b N x n w)

/-- Gate alphabet of the Fourier Transform Generator.  A `cphase k c t` is the
controlled phase rotation `CPHASE(angle, c, t)` with angle `π / 2 ^ k`: the
source computes the float `np.pi / 2 ** (j - i)`, represented here exactly by
the exponent `k = j - i`. -/
inductive QftGate where
  | hadamard (q : ℕ)
  | cphase (k : ℕ) (ctrl tgt : ℕ)
  | swap (a b : ℕ)
deriving DecidableEq

/-- `qft_pyquil(qubits)` (`Pyquil/Shors.py` lines 110–128): for `i` in
`range(n)`, an `H` on `qubits[i]` followed by `CPHASE(π / 2^(j-i), qubits[i],
qubits[j])` for `j` in `range(i+1, n)`; then `SWAP(qubits[i], qubits[n-1-i])`
for `i` in `range(n // 2)`.  The same explicit swap loop appears at
`Cirq/Shors.py` lines 105–107. -/
def qft_pyquil (qs : List ℕ) : List QftGate :=
  ((List.range qs.length).flatMap fun i =>
    QftGate.hadamard (qs.getD i 0) ::
      (List.range' (i + 1) (qs.length - (i + 1))).map fun j =>
        QftGate.cphase (j - i) (qs.getD i 0) (qs.getD j 0))
  ++ ((List.range (qs.length / 2)).map fun i =>
    QftGate.swap (qs.getD i 0) (qs.getD (qs.length - 1 - i) 0))

/-- The spec's description of the Fourier Transform Generator (§4.3), written
as a structural recursion over the qubit list: for each position `i` a
Hadamard on `qubits[i]`, then for each `j = i+1, …, n-1` a controlled phase
rotation of angle `π / 2^(j-i)` between `qubits[i]` (control) and `qubits[j]`
(target); position `d` of the remaining list is `j = i + 1 + d`, with angle
exponent `j - i = d + 1`. -/
def qftSpecRows : List ℕ → List QftGate
  | [] => []
  | q :: rest =>
    (QftGate.hadamard q ::
      (List.range rest.length).map fun d => QftGate.cphase (d + 1) q (rest.getD d 0))
    ++ qftSpecRows rest

/-- The spec's closing swap pass (§4.3): swap gates pairing `qubits[i]` and
`qubits[n-1-i]` for `i = 0, …, n/2 - 1`. -/
def qftSpecSwaps (qs : List ℕ) : List QftGate :=
  (List.range (qs.length / 2)).map fun i =>
    QftGate.swap (qs.getD i 0) (qs.getD (qs.length - 1 - i) 0)

/-- The full gate sequence demanded by the spec for the Fourier Transform
Generator. -/
def qftSpecSequence (qs : List ℕ) : List QftGate :=
  qftSpecRows qs ++ qftSpecSwaps qs

/-- The continued-fraction loop of CPython's `Fraction.limit_denominator`
(`fractions.py`): state `(p0, q0, p1, q1)` holds the last two convergents of
`n/d`; the loop stops when the next convergent's denominator `q2` would exceed
`max_denominator` (returning the state before that update) or when the
remainder chain ends.  Each step replaces `(n, d)` by `(d, n - a*d)` with
`a = n // d`, so `d` strictly decreases; the fuel `d + 1` therefore always
suffices. -/
def cfLoop (M : ℕ) : ℕ → ℤ × ℤ × ℤ × ℤ → ℤ → ℤ → ℤ × ℤ × ℤ × ℤ
  | 0, st, _, _ => st
  | fuel + 1, (p0, q0, p1, q1), n, d =>
    let a := n / d
    let q2 := q0 + a * q1
    if (M : ℤ) < q2 then (p0, q0, p1, q1)
    else cfLoop M fuel (p1, q1, p0 + a * p1, q2) d (n - a * d)

/-- CPython's `Fraction.limit_denominator(max_denominator)`: the closest
rational to `x` with denominator at most `M`.  If `x.den ≤ M` the fraction is
returned unchanged (the code's early return); otherwise the two candidate
bounds built from the continued-fraction convergents are compared and the
closer one returned, ties favouring `bound2` (`≤` in the source).  Python's
`Fraction(p, q)` constructor is normalized division, modelled by `ℚ`
division. -/
def limit_denominator (x : ℚ) (M : ℕ) : ℚ :=
  if x.den ≤ M then x
  else
    match cfLoop M (x.den + 1) (0, 1, 1, 0) x.num x.den with
    | (p0, q0, p1, q1) =>
      let k : ℤ := ((M : ℤ) - q0) / q1
      let bound1 : ℚ := ((p0 + k * p1 : ℤ) : ℚ) / ((q0 + k * q1 : ℤ) : ℚ)
      let bound2 : ℚ := ((p1 : ℤ) : ℚ) / ((q1 : ℤ) : ℚ)
      if |bound2 - x| ≤ |bound1 - x| then bound2 else bound1

/-- Conversion of one measurement sample (list of classical bits, first
measured bit most significant) to the integer `y`: the fold
`y_val = (y_val << 1) | bit` of `Cirq/Shors.py` lines 155–157; the Qiskit and
PyQuil variants use `int(bitstring, 2)`, which is the same value. -/
def bitsToNat (bs : List Bool) : ℕ :=
  bs.foldl (fun a b => 2 * a + (if b then 1 else 0)) 0

/-- The candidate period extracted from sample value `y` with resolution `q`:
the denominator of `Fraction(y_over_q).limit_denominator(q)`
(`Cirq/Shors.py` lines 158–160).  `y_over_q = y / q` is a float division of
`y` by a power of two, which is exact for the register sizes involved, and
`Fraction` of that float is the exact normalized rational `y/q`, modelled by
`mkRat y q`. -/
def r_candidate (y q : ℕ) : ℕ :=
  (limit_denominator (mkRat y q) q).den

/-- Validation of a candidate period (`Cirq/Shors.py` lines 165–170,
`Qiskit/Shors.py` lines 168–169, `Pyquil/Shors.py` lines 221–222): keep `r`
exactly when `r < N`, `r` is even, and `b ^ (r/2) mod N ≠ N - 1`. -/
def validCandidate (b N r : ℕ) : Bool :=
  decide (r < N) && decide (r % 2 = 0) && decide (b ^ (r / 2) % N ≠ N - 1)

/-- The keys (first components) of an association-list table. -/
def keysOf (t : List (ℕ × ℕ)) : List ℕ :=
  t.map Prod.fst

/-- Add `d` to the entry of key `r` in an insertion-ordered association list,
appending `(r, d)` at the end when `r` is absent: precisely the behaviour of
`dict[r] = dict.get(r, 0) + d` (and of `Counter[r] += d`) on Python's
insertion-ordered dictionaries. -/
def bumpBy : List (ℕ × ℕ) → ℕ → ℕ → List (ℕ × ℕ)
  | [], r, d => [(r, d)]
  | (k, c) :: t, r, d => if k = r then (k, c + d) :: t else (k, c) :: bumpBy t r d

/-- Increment the count of key `r` by one (`Counter[r] += 1`). -/
def bump (t : List (ℕ × ℕ)) (r : ℕ) : List (ℕ × ℕ) :=
  bumpBy t r 1

/-- `collections.Counter` of a list of values: counts keyed in first-occurrence
order. -/
def tally (l : List ℕ) : List (ℕ × ℕ) :=
  l.foldl bump []

/-- One iteration of the Cirq post-processing loop (`Cirq/Shors.py` lines
153–171): convert the sample's bits to `y`, extract the candidate period, and
bump its count when it validates. -/
def cirqStep (b N q : ℕ) (t : List (ℕ × ℕ)) (bs : List Bool) : List (ℕ × ℕ) :=
  let r := r_candidate (bitsToNat bs) q
  if validCandidate b N r then bump t r else t

/-- The Cirq variant's `candidate_counts` after processing all measurement
samples. -/
def cirqCandidateTable (b N q : ℕ) (samples : List (List Bool)) : List (ℕ × ℕ) :=
  samples.foldl (cirqStep b N q) []

/-- One iteration of the grouped post-processing loop shared by the Qiskit
(`Qiskit/Shors.py` lines 158–170) and PyQuil (`Pyquil/Shors.py` lines
213–223) variants: each entry `(y, count)` of the measurement-count table
contributes `count` to its validated candidate period. -/
def groupedStep (b N q : ℕ) (t : List (ℕ × ℕ)) (p : ℕ × ℕ) : List (ℕ × ℕ) :=
  let r := r_candidate p.1 q
  if validCandidate b N r then bumpBy t r p.2 else t

/-- The Qiskit variant's `candidate_counts`: the backend's measurement-count
table (modelled as the first-occurrence-ordered counts of the sample list)
folded through the grouped loop. -/
def qiskitCandidateTable (b N q : ℕ) (samples : List (List Bool)) : List (ℕ × ℕ) :=
  (tally (samples.map bitsToNat)).foldl (groupedStep b N q) []

/-- The PyQuil variant's `candidate_counts`: `counts` is
`collections.Counter` over the per-shot bitstrings (`Pyquil/Shors.py` lines
199–204), then the same grouped loop as Qiskit. -/
def pyquilCandidateTable (b N q : ℕ) (samples : List (List Bool)) : List (ℕ × ℕ) :=
  (tally (samples.map bitsToNat)).foldl (groupedStep b N q) []

/-- Selection of the most frequent candidate period.  Both
`candidate_counts.most_common(1)[0]` (Cirq; `heapq.nlargest` is documented as
`sorted(..., key=..., reverse=True)[:n]`, a stable selection) and
`max(candidate_counts.items(), key=lambda item: item[1])` (Qiskit, PyQuil)
return the first item in iteration order whose count is maximal: a later item
replaces the current best only when strictly greater. -/
def firstMaxBySnd : List (ℕ × ℕ) → Option (ℕ × ℕ)
  | [] => none
  | p :: t => some (t.foldl (fun best x => if best.2 < x.2 then x else best) p)

/-- Factor computation from the selected period (`Cirq/Shors.py` lines
180–183, `Qiskit/Shors.py` lines 176–179, `Pyquil/Shors.py` lines 228–231):
`m = pow(b, r // 2, N)`, then `(gcd(m - 1, N), gcd(m + 1, N))` with Python's
signed subtraction and `math.gcd` (absolute values), modelled by `Int.gcd`. -/
def factorPair (b N r : ℕ) : ℕ × ℕ :=
  let m : ℤ := (b ^ (r / 2) % N : ℕ)
  (Int.gcd (m - 1) N, Int.gcd (m + 1) N)

/-- Terminal result of one variant's classical post-processing. -/
inductive ShorsOutcome where
  | factors (f1 f2 : ℕ)
  | trivialFactors
  | noCandidate
deriving DecidableEq

/-- The Cirq variant's final step (`Cirq/Shors.py` lines 174–190): empty
table → no-candidate failure; otherwise select the period, compute the factor
pair, and report success only if neither factor is `1` or `N`
(`if factor1 not in (1, N) and factor2 not in (1, N)`). -/
def cirqResolve (b N : ℕ) (t : List (ℕ × ℕ)) : ShorsOutcome :=
  match firstMaxBySnd t with
  | none => .noCandidate
  | some (r, _) =>
    let f := factorPair b N r
    if f.1 ≠ 1 ∧ f.1 ≠ N ∧ f.2 ≠ 1 ∧ f.2 ≠ N then .factors f.1 f.2
    else .trivialFactors

/-- The Qiskit variant's final step (`Qiskit/Shors.py` lines 172–182): empty
table → failure message; otherwise the factor pair is printed with no final
validation. -/
def qiskitResolve (b N : ℕ) (t : List (ℕ × ℕ)) : ShorsOutcome :=
  match firstMaxBySnd t with
  | none => .noCandidate
  | some (r, _) =>
    let f := factorPair b N r
    .factors f.1 f.2

/-- The PyQuil variant's final step (`Pyquil/Shors.py` lines 225–234):
identical in structure to the Qiskit one — no final validation. -/
def pyquilResolve (b N : ℕ) (t : List (ℕ × ℕ)) : ShorsOutcome :=
  match firstMaxBySnd t with
  | none => .noCandidate
  | some (r, _) =>
    let f := factorPair b N r
    .factors f.1 f.2

/-- End-to-end classical post-processing of the Cirq variant. -/
def cirqOutcome (b N q : ℕ) (samples : List (List Bool)) : ShorsOutcome :=
  cirqResolve b N (cirqCandidateTable b N q samples)

/-- End-to-end classical post-processing of the Qiskit variant. -/
def qiskitOutcome (b N q : ℕ) (samples : List (List Bool)) : ShorsOutcome :=
  qiskitResolve b N (qiskitCandidateTable b N q samples)

/-- End-to-end classical post-processing of the PyQuil variant. -/
def pyquilOutcome (b N q : ℕ) (samples : List (List Bool)) : ShorsOutcome :=
  pyquilResolve b N (pyquilCandidateTable b N q samples)

/-! ### Lemmas about the permutation matrix -/

theorem permTarget_lt (c : ℤ) {N k y : ℕ} (hNk : N ≤ 2 ^ k) (hy : y < 2 ^ k) :
    permTarget c N y < 2 ^ k := by
  unfold permTarget
  by_cases h : y < N
  · have hNpos : 0 < N := by omega
    have hN0 : (0:ℤ) < (N:ℤ) := by exact_mod_cast hNpos
    have h1 : 0 ≤ c * (y:ℤ) % (N:ℤ) := Int.emod_nonneg _ (ne_of_gt hN0)
    have h2 : c * (y:ℤ) % (N:ℤ) < (N:ℤ) := Int.emod_lt_of_pos _ hN0
    simp only [if_pos h]
    have : ((c * (y:ℤ) % (N:ℤ)).toNat : ℤ) < (N:ℤ) := by
      rwa [Int.toNat_of_nonneg h1]
    calc (c * (y:ℤ) % (N:ℤ)).toNat < N := by exact_mod_cast this
      _ ≤ 2 ^ k := hNk
  · simpa [h] using hy

theorem permTarget_inj (c : ℤ) {N : ℕ} (hg : Int.gcd c N = 1) {y1 y2 : ℕ}
    (h : permTarget c N y1 = permTarget c N y2) : y1 = y2 := by
  unfold permTarget at h
  by_cases h1 : y1 < N <;> by_cases h2 : y2 < N
  · have hNpos : 0 < N := by omega
    have hN0 : (0:ℤ) < (N:ℤ) := by exact_mod_cast hNpos
    simp only [if_pos h1, if_pos h2] at h
    have e1 : 0 ≤ c * (y1:ℤ) % (N:ℤ) := Int.emod_nonneg _ (ne_of_gt hN0)
    have e2 : 0 ≤ c * (y2:ℤ) % (N:ℤ) := Int.emod_nonneg _ (ne_of_gt hN0)
    have hmod : c * (y1:ℤ) % (N:ℤ) = c * (y2:ℤ) % (N:ℤ) := by omega
    have hcan : (y1:ℤ) ≡ (y2:ℤ) [ZMOD ((N:ℤ) / Int.gcd (N:ℤ) c)] :=
      Int.ModEq.cancel_left_div_gcd hN0 hmod
    have hgc : Int.gcd (N:ℤ) c = 1 := by rwa [Int.gcd_comm]
    rw [hgc] at hcan
    simp only [Nat.cast_one, Int.ediv_one] at hcan
    have hmm : (y1:ℤ) % (N:ℤ) = (y2:ℤ) % (N:ℤ) := hcan
    have hy1 : (y1:ℤ) % (N:ℤ) = (y1:ℤ) := Int.emod_eq_of_lt (by positivity) (by exact_mod_cast h1)
    have hy2 : (y2:ℤ) % (N:ℤ) = (y2:ℤ) := Int.emod_eq_of_lt (by positivity) (by exact_mod_cast h2)
    rw [hy1, hy2] at hmm
    exact_mod_cast hmm
  · exfalso
    have hNpos : 0 < N := by omega
    have hN0 : (0:ℤ) < (N:ℤ) := by exact_mod_cast hNpos
    simp only [if_pos h1, if_neg h2] at h
    have e1 : 0 ≤ c * (y1:ℤ) % (N:ℤ) := Int.emod_nonneg _ (ne_of_gt hN0)
    have e2 : c * (y1:ℤ) % (N:ℤ) < (N:ℤ) := Int.emod_lt_of_pos _ hN0
    omega
  · exfalso
    have hNpos : 0 < N := by omega
    have hN0 : (0:ℤ) < (N:ℤ) := by exact_mod_cast hNpos
    simp only [if_neg h1, if_pos h2] at h
    have e1 : 0 ≤ c * (y2:ℤ) % (N:ℤ) := Int.emod_nonneg _ (ne_of_gt hN0)
    have e2 : c * (y2:ℤ) % (N:ℤ) < (N:ℤ) := Int.emod_lt_of_pos _ hN0
    omega
  · simpa [h1, h2] using h

theorem dynPerm_column_sum (c : ℤ) {N k : ℕ} (y : ℕ) (hNk : N ≤ 2 ^ k) (hy : y < 2 ^ k) :
    (∑ r ∈ Finset.range (2 ^ k), dynamic_permutation_matrix c N k r y) = 1 := by
  unfold dynamic_permutation_matrix
  rw [Finset.sum_ite_eq' (Finset.range (2 ^ k)) (permTarget c N y) (fun _ => 1)]
  simp [Finset.mem_range.mpr (permTarget_lt c hNk hy)]

theorem dynPerm_one_iff (c : ℤ) (N k r y : ℕ) :
    dynamic_permutation_matrix c N k r y = 1 ↔
      ((y < N ∧ (r:ℤ) = c * (y:ℤ) % (N:ℤ)) ∨ (N ≤ y ∧ r = y)) := by
  have hbase : dynamic_permutation_matrix c N k r y = 1 ↔ r = permTarget c N y := by
    unfold dynamic_permutation_matrix; split <;> simp_all
  rw [hbase]
  unfold permTarget
  by_cases hy : y < N
  · have hNpos : 0 < N := by omega
    have hN0 : (0:ℤ) < (N:ℤ) := by exact_mod_cast hNpos
    have he : 0 ≤ c * (y:ℤ) % (N:ℤ) := Int.emod_nonneg _ (ne_of_gt hN0)
    simp only [if_pos hy]
    constructor
    · intro hr
      exact Or.inl ⟨hy, by omega⟩
    · rintro (⟨_, hr⟩ | ⟨hge, _⟩)
      · omega
      · omega
  · simp only [if_neg hy]
    constructor
    · intro hr
      exact Or.inr ⟨by omega, hr⟩
    · rintro (⟨hlt, _⟩ | ⟨_, hr⟩)
      · exact absurd hlt hy
      · exact hr

theorem dynPerm_zero_iff (c : ℤ) (N k r y : ℕ) :
    dynamic_permutation_matrix c N k r y = 0 ↔ ¬ dynamic_permutation_matrix c N k r y = 1 := by
  unfold dynamic_permutation_matrix
  split <;> simp

/-! ### Claim theorems for the Modular Permutation Builder -/

/-- C1 (counterexample): the claim "for every integer multiplier `c` … the
matrix returned by `dynamic_permutation_matrix(c, N, k)` is unitary (columns
orthonormal)" fails at the concrete input `c = 2`, `N = 2`, `k = 1` (which
satisfies `2^k ≥ N`): columns `0` and `1` both map to row `0`, so they are
not orthogonal. -/
theorem C1_counterexample : (2:ℕ) ≤ 2 ^ 1 ∧ ¬ columnsOrthonormal 2 2 1 := by
  decide

/-- C1 (amended): for every integer multiplier `c` coprime to the modulus `N`
and every width `k` with `2^k ≥ N`, the matrix returned by
`dynamic_permutation_matrix(c, N, k)` is unitary: its columns are orthonormal,
i.e. it is a permutation matrix of dimension `2^k × 2^k`. -/
theorem C1_theorem (c : ℤ) (N k : ℕ) (hg : Int.gcd c N = 1) (hNk : N ≤ 2 ^ k) :
    columnsOrthonormal c N k := by
  intro y1 hy1 y2 hy2
  rw [Finset.mem_range] at hy1 hy2
  unfold dynamic_permutation_matrix
  by_cases h : y1 = y2
  · subst h
    rw [if_pos rfl]
    have hcongr : ∀ r ∈ Finset.range (2 ^ k),
        ((if r = permTarget c N y1 then 1 else 0) *
          (if r = permTarget c N y1 then 1 else 0) : ℕ)
          = if r = permTarget c N y1 then 1 else 0 := by
      intro r _
      by_cases hr : r = permTarget c N y1 <;> simp [hr]
    rw [Finset.sum_congr rfl hcongr,
      Finset.sum_ite_eq' (Finset.range (2 ^ k)) (permTarget c N y1) (fun _ => 1)]
    simp [Finset.mem_range.mpr (permTarget_lt c hNk hy1)]
  · rw [if_neg h]
    apply Finset.sum_eq_zero
    intro r _
    have hne : permTarget c N y1 ≠ permTarget c N y2 := fun he => h (permTarget_inj c hg he)
    by_cases hr1 : r = permTarget c N y1
    · rw [hr1, if_pos rfl, if_neg hne, mul_zero]
    · simp [hr1]

/-- C1 (witness): the amended theorem applied at `c = 7`, `N = 15`, `k = 4`. -/
theorem C1_witness : Int.gcd 7 15 = 1 ∧ (15:ℕ) ≤ 2 ^ 4 ∧ columnsOrthonormal 7 15 4 :=
  ⟨by decide, by decide, C1_theorem 7 15 4 (by decide) (by decide)⟩

/-- C7: entry `(r, y)` of `dynamic_permutation_matrix(c, N, k)` is `1` exactly
when `y < N` and `r = (c·y) mod N`, or `y ≥ N` and `r = y`; it is `0`
otherwise; in particular every basis index `y ≥ N` is fixed. -/
theorem C7_theorem (c : ℤ) (N k r y : ℕ) (hNk : N ≤ 2 ^ k) (hr : r < 2 ^ k)
    (hy : y < 2 ^ k) :
    (dynamic_permutation_matrix c N k r y = 1 ↔
      ((y < N ∧ (r:ℤ) = c * (y:ℤ) % (N:ℤ)) ∨ (N ≤ y ∧ r = y)))
    ∧ (dynamic_permutation_matrix c N k r y = 0 ↔
      ¬ ((y < N ∧ (r:ℤ) = c * (y:ℤ) % (N:ℤ)) ∨ (N ≤ y ∧ r = y)))
    ∧ (N ≤ y → dynamic_permutation_matrix c N k y y = 1) := by
  refine ⟨dynPerm_one_iff c N k r y, ?_, ?_⟩
  · rw [dynPerm_zero_iff, dynPerm_one_iff]
  · intro hge
    exact (dynPerm_one_iff c N k y y).mpr (Or.inr ⟨hge, rfl⟩)

/-- C7 (witness): the theorem applied at `c = 3`, `N = 15`, `k = 4`,
`r = y = 15`: the out-of-range basis index `15` is fixed. -/
theorem C7_witness : dynamic_permutation_matrix 3 15 4 15 15 = 1 :=
  (C7_theorem 3 15 4 15 15 (by decide) (by decide) (by decide)).2.2 (by decide)

/-- C10: every column of `dynamic_permutation_matrix(c, N, k)` contains
exactly one nonzero entry and that entry is `1` — the matrix encodes a total
function on the basis indices, with no coprimality assumption on `c`. -/
theorem C10_theorem (c : ℤ) (N k y : ℕ) (hNk : N ≤ 2 ^ k) (hy : y < 2 ^ k) :
    (∑ r ∈ Finset.range (2 ^ k), dynamic_permutation_matrix c N k r y) = 1
    ∧ ∀ r : ℕ, dynamic_permutation_matrix c N k r y ≠ 0 →
        dynamic_permutation_matrix c N k r y = 1 := by
  refine ⟨dynPerm_column_sum c y hNk hy, ?_⟩
  intro r hne
  unfold dynamic_permutation_matrix at *
  split at hne
  · split <;> simp_all
  · simp_all

/-- C10 (witness): the theorem applied at `c = 3`, `N = 15`, `k = 4`,
column `y = 5`, where `gcd(c, N) = 3 > 1`. -/
theorem C10_witness :
    Int.gcd 3 15 = 3
    ∧ (∑ r ∈ Finset.range (2 ^ 4), dynamic_permutation_matrix 3 15 4 r 5) = 1 :=
  ⟨by decide, (C10_theorem 3 15 4 5 (by decide) (by decide)).1⟩

/-! ### Claim theorem for the Controlled Exponentiation Composer -/

theorem modExpRun_eq (b N : ℕ) (hN : 2 ≤ N) (x : ℕ) :
    ∀ (n w : ℕ), w < N → modExpRun b N x n w = b ^ (x % 2 ^ n) * w % N := by
  intro n
  induction n with
  | zero =>
    intro w hw
    simp [modExpRun, Nat.mod_one, Nat.mod_eq_of_lt hw]
  | succ n ih =>
    intro w hw
    have hNpos : 0 < N := by omega
    have hv : b ^ (x % 2 ^ n) * w % N < N := Nat.mod_lt _ hNpos
    show modExpStep b N x n (modExpRun b N x n w) = b ^ (x % 2 ^ (n + 1)) * w % N
    rw [ih w hw]
    unfold modExpStep
    rw [Nat.testBit_to_div_mod, Nat.mod_pow_succ]
    rcases Nat.mod_two_eq_zero_or_one (x / 2 ^ n) with hb | hb
    · rw [hb]
      norm_num
    · rw [hb]
      norm_num
      unfold permTargetN c_j
      rw [if_pos hv]
      rw [Nat.mul_mod_mod, Nat.mod_mul_mod]
      rw [← mul_assoc, ← pow_add]
      ring_nf
    
/-- C2: starting from work-register value `1` and applying, in increasing
bit-index order `j`, the map `y ↦ (c_j · y) mod N` with `c_j = b^(2^j) mod N`
exactly for those `j` where bit `j` of `x` is `1` (the controlled gates
emitted by `build_modular_exponentiation`), the final work-register value is
`b^x mod N`. -/
theorem C2_theorem (b N n x : ℕ) (hN : 2 ≤ N) (hx : x < 2 ^ n) :
    modExpRun b N x n 1 = b ^ x % N := by
  rw [modExpRun_eq b N hN x n 1 (by omega), Nat.mod_eq_of_lt hx, mul_one]

/-- C2 (witness): the theorem applied at `b = 8`, `N = 15`, `n = 2`, `x = 3`:
the gates leave the work register holding `8^3 mod 15 = 2`. -/
theorem C2_witness : 2 ≤ 15 ∧ 3 < 2 ^ 2 ∧ modExpRun 8 15 3 2 1 = 8 ^ 3 % 15 :=
  ⟨by decide, by decide, C2_theorem 8 15 2 3 (by decide) (by decide)⟩

/-! ### Claim theorems for the work-register width -/

/-- C9 (counterexample): the claim "the work-register width used equals the
minimal `k` with `2^k ≥ N`" fails at `N = 3`: the source computes
`min_work = math.ceil(math.log(3, 2)) = 2` (robust to floating-point rounding,
since `log₂ 3 = 1.58…` is far from an integer) and then uses
`max(min_work, 4) = 4` work qubits, while the minimal width is `2`
(`2^2 = 4 ≥ 3` and `2^1 < 3`).  The refutation does not rest on the float
value: `max(m, 4) ≥ 4` is never the minimal width of `N = 3` for any `m`,
which the amended theorem proves for every `m`. -/
theorem C9_counterexample :
    minimalWidth 3 2 ∧ work_qubits 2 = 4 ∧ ¬ minimalWidth 3 (work_qubits 2) := by
  decide

/-- C9 (amended): the width used when constructing the circuit is
`max(min_work, 4)`, where `min_work` is the source's floating-point
`ceil(log₂ N)`, here an arbitrary value `m`.  For every modulus `3 ≤ N ≤ 8`
that width is not the minimal `k` with `2^k ≥ N`, whatever value `m` the
floating-point computation returns; and whenever `m` does equal the minimal
width (the exact-logarithm reading of `math.log`), the width used is the
minimal width exactly when `N ≥ 9`. -/
theorem C9_theorem (N m : ℕ) (hN : 3 ≤ N) :
    (N ≤ 8 → ¬ minimalWidth N (work_qubits m))
    ∧ (9 ≤ N → minimalWidth N m → work_qubits m = m)
    ∧ (minimalWidth N m → (minimalWidth N (work_qubits m) ↔ 9 ≤ N)) := by
  have hwq : work_qubits m = max m 4 := rfl
  have ha : N ≤ 8 → ¬ minimalWidth N (work_qubits m) := by
    intro h8 hmin
    obtain ⟨hle, hsmall⟩ := hmin
    have h3 : 3 < work_qubits m := by
      rw [hwq]
      omega
    have h8' := hsmall 3 h3
    norm_num at h8'
    omega
  have hb : 9 ≤ N → minimalWidth N m → work_qubits m = m := by
    intro h9 hm
    obtain ⟨hle, _⟩ := hm
    have hm4 : 4 ≤ m := by
      by_contra hc
      push_neg at hc
      have hpow : (2:ℕ) ^ m ≤ 2 ^ 3 := Nat.pow_le_pow_right (by norm_num) (by omega)
      norm_num at hpow
      omega
    rw [hwq]
    omega
  refine ⟨ha, hb, ?_⟩
  intro hm
  constructor
  · intro hw
    by_contra hc
    push_neg at hc
    exact ha (by omega) hw
  · intro h9
    rw [hb h9 hm]
    exact hm

/-- C9 (witness): the amended theorem applied at `N = 3`, `m = 2` (the width
`4` used there is not minimal) and at `N = 9`, `m = 4` (the minimal width `4`
is used unchanged). -/
theorem C9_witness :
    ¬ minimalWidth 3 (work_qubits 2) ∧ minimalWidth 9 (work_qubits 4) :=
  ⟨(C9_theorem 3 2 (by decide)).1 (by decide),
    ((C9_theorem 9 4 (by decide)).2.2 (by decide)).mpr (by decide)⟩

/-! ### Claim theorem for the Fourier Transform Generator -/

theorem flatMap_range_succ_shift {α : Type} (n : ℕ) (f : ℕ → List α) :
    (List.range (n + 1)).flatMap f = f 0 ++ (List.range n).flatMap (fun i => f (i + 1)) := by
  rw [List.range_succ_eq_map]
  simp [List.flatMap_map, Function.comp]

theorem qftRows_eq (qs : List ℕ) :
    ((List.range qs.length).flatMap fun i =>
      QftGate.hadamard (qs.getD i 0) ::
        (List.range' (i + 1) (qs.length - (i + 1))).map fun j =>
          QftGate.cphase (j - i) (qs.getD i 0) (qs.getD j 0))
    = qftSpecRows qs := by
  induction qs with
  | nil => simp [qftSpecRows]
  | cons q rest ih =>
    rw [List.length_cons, flatMap_range_succ_shift]
    unfold qftSpecRows
    congr 1
    · simp only [List.getD_cons_zero, Nat.add_sub_cancel]
      congr 1
      rw [List.range'_eq_map_range, List.map_map]
      apply List.map_congr_left
      intro d hd
      simp only [Function.comp_apply]
      have h2 : 1 + d = d + 1 := by omega
      rw [h2, List.getD_cons_succ]
      norm_num
    · rw [← ih]
      apply List.flatMap_congr
      intro i hi
      rw [List.getD_cons_succ]
      have hlen : rest.length + 1 - (i + 1 + 1) = rest.length - (i + 1) := by omega
      rw [hlen]
      congr 1
      rw [List.range'_eq_map_range, List.range'_eq_map_range, List.map_map, List.map_map]
      apply List.map_congr_left
      intro d hd
      simp only [Function.comp_apply]
      have e1 : i + 1 + 1 + d = (i + 1 + d) + 1 := by omega
      rw [e1, List.getD_cons_succ]
      congr 1
      omega

/-- C8: for every ordered list of qubits, `qft_pyquil` emits exactly the
sequence required by the spec, in order: for `i = 0, …, n-1` a Hadamard on
`qubits[i]` followed, for `j = i+1, …, n-1`, by a controlled phase rotation
with control `qubits[i]`, target `qubits[j]` and angle `π / 2^(j-i)`; then
swap gates pairing `qubits[i]` with `qubits[n-1-i]` for `i = 0, …, n/2-1`. -/
theorem C8_theorem (qs : List ℕ) : qft_pyquil qs = qftSpecSequence qs := by
  unfold qft_pyquil qftSpecSequence qftSpecSwaps
  rw [qftRows_eq]

/-! ### Lemmas about frequency tables -/

theorem bumpBy_add (t : List (ℕ × ℕ)) (r : ℕ) (c d : ℕ) :
    bumpBy (bumpBy t r c) r d = bumpBy t r (c + d) := by
  induction t with
  | nil => simp [bumpBy]
  | cons p t ih =>
    obtain ⟨k, c0⟩ := p
    by_cases hk : k = r
    · simp [bumpBy, hk, Nat.add_assoc]
    · simp [bumpBy, hk, ih]

theorem keysOf_nil : keysOf [] = [] := rfl

theorem keysOf_cons (p : ℕ × ℕ) (t : List (ℕ × ℕ)) : keysOf (p :: t) = p.1 :: keysOf t := rfl

theorem mem_keysOf_bumpBy (t : List (ℕ × ℕ)) (r r' : ℕ) (d : ℕ) :
    r ∈ keysOf (bumpBy t r' d) ↔ r = r' ∨ r ∈ keysOf t := by
  induction t with
  | nil => simp [bumpBy, keysOf_nil, keysOf_cons]
  | cons p t ih =>
    obtain ⟨k, c0⟩ := p
    by_cases hk : k = r'
    · subst hk
      have hb : bumpBy ((k, c0) :: t) k d = (k, c0 + d) :: t := by simp [bumpBy]
      rw [hb, keysOf_cons, keysOf_cons]
      simp only [List.mem_cons]
      tauto
    · have hb : bumpBy ((k, c0) :: t) r' d = (k, c0) :: bumpBy t r' d := by simp [bumpBy, hk]
      rw [hb, keysOf_cons, keysOf_cons]
      simp only [List.mem_cons, ih]
      tauto

theorem bumpBy_comm (t : List (ℕ × ℕ)) (r r' : ℕ) (d c : ℕ) (hne : r ≠ r')
    (hr : r ∈ keysOf t) :
    bumpBy (bumpBy t r d) r' c = bumpBy (bumpBy t r' c) r d := by
  induction t with
  | nil => simp [keysOf_nil] at hr
  | cons p t ih =>
    obtain ⟨k, c0⟩ := p
    by_cases hkr : k = r
    · subst hkr
      simp [bumpBy, hne, Ne.symm hne]
    · by_cases hkr' : k = r'
      · subst hkr'
        simp [bumpBy, hne, Ne.symm hne, hkr]
      · have hr' : r ∈ keysOf t := by
          rw [keysOf_cons, List.mem_cons] at hr
          rcases hr with h | h
          · exact absurd h.symm hkr
          · exact h
        simp [bumpBy, hkr, hkr', ih hr']

theorem foldl_groupedStep_bumpBy (b N q : ℕ) :
    ∀ (l : List (ℕ × ℕ)) (acc : List (ℕ × ℕ)) (r : ℕ) (d : ℕ), r ∈ keysOf acc →
      l.foldl (groupedStep b N q) (bumpBy acc r d)
        = bumpBy (l.foldl (groupedStep b N q) acc) r d := by
  intro l
  induction l with
  | nil => intro acc r d _; simp
  | cons p l ih =>
    intro acc r d hr
    have hstep : groupedStep b N q (bumpBy acc r d) p = bumpBy (groupedStep b N q acc p) r d := by
      unfold groupedStep
      by_cases hv : validCandidate b N (r_candidate p.1 q)
      · simp only [hv, if_true]
        by_cases heq : r_candidate p.1 q = r
        · rw [heq, bumpBy_add, bumpBy_add, Nat.add_comm]
        · exact bumpBy_comm acc r (r_candidate p.1 q) d p.2 (Ne.symm heq) hr
      · simp [hv]
    have hmem : r ∈ keysOf (groupedStep b N q acc p) := by
      unfold groupedStep
      by_cases hv : validCandidate b N (r_candidate p.1 q)
      · simp only [hv, if_true]
        exact (mem_keysOf_bumpBy _ _ _ _).mpr (Or.inr hr)
      · simpa [hv]
    calc (p :: l).foldl (groupedStep b N q) (bumpBy acc r d)
        = l.foldl (groupedStep b N q) (groupedStep b N q (bumpBy acc r d) p) := by
          rw [List.foldl_cons]
      _ = l.foldl (groupedStep b N q) (bumpBy (groupedStep b N q acc p) r d) := by rw [hstep]
      _ = bumpBy (l.foldl (groupedStep b N q) (groupedStep b N q acc p)) r d :=
          ih _ r d hmem
      _ = bumpBy ((p :: l).foldl (groupedStep b N q) acc) r d := by rw [List.foldl_cons]

theorem foldl_groupedStep_bump_counts (b N q : ℕ) :
    ∀ (t : List (ℕ × ℕ)) (acc : List (ℕ × ℕ)) (y d : ℕ),
      (bumpBy t y d).foldl (groupedStep b N q) acc
        = if validCandidate b N (r_candidate y q)
          then bumpBy (t.foldl (groupedStep b N q) acc) (r_candidate y q) d
          else t.foldl (groupedStep b N q) acc := by
  intro t
  induction t with
  | nil =>
    intro acc y d
    show groupedStep b N q acc (y, d) = _
    unfold groupedStep
    rfl
  | cons p t ih =>
    intro acc y d
    obtain ⟨k, c0⟩ := p
    by_cases hk : k = y
    · subst hk
      have hb : bumpBy ((k, c0) :: t) k d = (k, c0 + d) :: t := by simp [bumpBy]
      rw [hb, List.foldl_cons, List.foldl_cons]
      by_cases hv : validCandidate b N (r_candidate k q)
      · have hg1 : groupedStep b N q acc (k, c0 + d)
            = bumpBy (bumpBy acc (r_candidate k q) c0) (r_candidate k q) d := by
          unfold groupedStep
          simp only [hv, if_true, bumpBy_add]
        have hg0 : groupedStep b N q acc (k, c0) = bumpBy acc (r_candidate k q) c0 := by
          unfold groupedStep
          simp only [hv, if_true]
        rw [hg1, hg0, if_pos hv]
        exact foldl_groupedStep_bumpBy b N q t _ _ d
          ((mem_keysOf_bumpBy _ _ _ _).mpr (Or.inl rfl))
      · have hg1 : groupedStep b N q acc (k, c0 + d) = acc := by
          unfold groupedStep
          simp [hv]
        have hg0 : groupedStep b N q acc (k, c0) = acc := by
          unfold groupedStep
          simp [hv]
        rw [hg1, hg0, if_neg hv]
    · have hb : bumpBy ((k, c0) :: t) y d = (k, c0) :: bumpBy t y d := by simp [bumpBy, hk]
      rw [hb, List.foldl_cons, List.foldl_cons]
      exact ih (groupedStep b N q acc (k, c0)) y d

theorem grouped_table_eq_cirq (b N q : ℕ) :
    ∀ (l : List ℕ) (t : List (ℕ × ℕ)),
      (l.foldl bump t).foldl (groupedStep b N q) []
        = l.foldl
            (fun a y =>
              if validCandidate b N (r_candidate y q) then bump a (r_candidate y q) else a)
            (t.foldl (groupedStep b N q) []) := by
  intro l
  induction l with
  | nil => intro t; simp
  | cons y l ih =>
    intro t
    rw [List.foldl_cons, List.foldl_cons, ih (bump t y)]
    congr 1
    show (bumpBy t y 1).foldl (groupedStep b N q) [] = _
    rw [foldl_groupedStep_bump_counts b N q t [] y 1]
    rfl

theorem qiskit_table_eq_cirq (b N q : ℕ) (ss : List (List Bool)) :
    qiskitCandidateTable b N q ss = cirqCandidateTable b N q ss := by
  unfold qiskitCandidateTable cirqCandidateTable tally
  rw [grouped_table_eq_cirq b N q (ss.map bitsToNat) []]
  simp only [List.foldl_nil]
  rw [List.foldl_map]
  rfl

/-! ### Claim theorems for the Period Extractor -/

theorem limit_denominator_self (x : ℚ) (M : ℕ) (h : x.den ≤ M) :
    limit_denominator x M = x := by
  unfold limit_denominator
  rw [if_pos h]

theorem den_mkRat_le (y q : ℕ) (hq : 0 < q) : (mkRat (y:ℤ) q).den ≤ q := by
  have hdvd : ((mkRat (y:ℤ) q).den : ℤ) ∣ (q:ℤ) := by
    rw [Rat.mkRat_eq_divInt]
    exact Rat.den_dvd _ _
  have hdvd' : (mkRat (y:ℤ) q).den ∣ q := by exact_mod_cast hdvd
  exact Nat.le_of_dvd hq hdvd'

theorem validCandidate_iff (b N r : ℕ) :
    validCandidate b N r = true ↔ (r < N ∧ r % 2 = 0 ∧ b ^ (r / 2) % N ≠ N - 1) := by
  unfold validCandidate
  simp [and_assoc]

theorem mem_keysOf_cirq_fold (b N q : ℕ) (r : ℕ) :
    ∀ (l : List (List Bool)) (t : List (ℕ × ℕ)),
      r ∈ keysOf (l.foldl (cirqStep b N q) t) ↔
        r ∈ keysOf t
          ∨ ∃ bs ∈ l, r_candidate (bitsToNat bs) q = r ∧ validCandidate b N r = true := by
  intro l
  induction l with
  | nil => intro t; simp
  | cons bs l ih =>
    intro t
    rw [List.foldl_cons, ih]
    have hstep : r ∈ keysOf (cirqStep b N q t bs) ↔
        r ∈ keysOf t ∨ (r_candidate (bitsToNat bs) q = r ∧ validCandidate b N r = true) := by
      unfold cirqStep
      by_cases hv : validCandidate b N (r_candidate (bitsToNat bs) q)
      · rw [if_pos hv]
        show r ∈ keysOf (bumpBy t _ 1) ↔ _
        rw [mem_keysOf_bumpBy]
        constructor
        · rintro (he | hm)
          · exact Or.inr ⟨he.symm, by rwa [← he] at hv⟩
          · exact Or.inl hm
        · rintro (hm | ⟨he, _⟩)
          · exact Or.inr hm
          · exact Or.inl he.symm
      · rw [if_neg hv]
        constructor
        · exact Or.inl
        · rintro (hm | ⟨he, hval⟩)
          · exact hm
          · exact absurd (by rwa [he]) hv
    rw [hstep, List.exists_mem_cons_iff]
    tauto

/-- C4: for every sample with value `y` and resolution `q`, the Period
Extractor takes `r_candidate` as the denominator of the best rational
approximation of `y/q` with denominator bound `q` (the returned fraction is
`y/q` itself, which is a best approximation — distance `0`), and a period `r`
enters the frequency table iff some sample produces it and `r < N`, `r` is
even, and `b^(r/2) mod N ≠ N - 1`; consequently a candidate whose half-power
equals `N - 1` never appears in the table. -/
theorem C4_theorem (b N q : ℕ) (ys : List (List Bool)) (r y : ℕ) (hq : 0 < q) :
    (r ∈ keysOf (cirqCandidateTable b N q ys) ↔
      ∃ bs ∈ ys, r_candidate (bitsToNat bs) q = r
        ∧ r < N ∧ r % 2 = 0 ∧ b ^ (r / 2) % N ≠ N - 1)
    ∧ (b ^ (r / 2) % N = N - 1 → r ∉ keysOf (cirqCandidateTable b N q ys))
    ∧ limit_denominator (mkRat (y:ℤ) q) q = mkRat (y:ℤ) q
    ∧ ∀ z : ℚ, z.den ≤ q →
        |mkRat (y:ℤ) q - limit_denominator (mkRat (y:ℤ) q) q| ≤ |mkRat (y:ℤ) q - z| := by
  have hmem : r ∈ keysOf (cirqCandidateTable b N q ys) ↔
      ∃ bs ∈ ys, r_candidate (bitsToNat bs) q = r
        ∧ r < N ∧ r % 2 = 0 ∧ b ^ (r / 2) % N ≠ N - 1 := by
    unfold cirqCandidateTable
    rw [mem_keysOf_cirq_fold]
    simp only [keysOf_nil, List.not_mem_nil, false_or]
    constructor
    · rintro ⟨bs, hbs, hrc, hval⟩
      exact ⟨bs, hbs, hrc, (validCandidate_iff b N r).mp hval⟩
    · rintro ⟨bs, hbs, hrc, hval⟩
      exact ⟨bs, hbs, hrc, (validCandidate_iff b N r).mpr hval⟩
  refine ⟨hmem, ?_, ?_, ?_⟩
  · intro hbad hin
    obtain ⟨bs, _, _, _, _, hne⟩ := hmem.mp hin
    exact hne hbad
  · exact limit_denominator_self _ _ (den_mkRat_le y q hq)
  · intro z _
    rw [limit_denominator_self _ _ (den_mkRat_le y q hq)]
    simp [abs_nonneg]

/-- C4 (witness): with `b = 8`, `N = 15`, `q = 4` the sample `"01"` (`y = 1`,
candidate `r = 4`) enters the table; with `b = 14` the sample `"10"` (`y = 2`,
candidate `r = 2`) is rejected because `14^1 mod 15 = 14 = N - 1`. -/
theorem C4_witness :
    4 ∈ keysOf (cirqCandidateTable 8 15 4 [[false, true]])
    ∧ 2 ∉ keysOf (cirqCandidateTable 14 15 4 [[true, false]]) :=
  ⟨(C4_theorem 8 15 4 [[false, true]] 4 1 (by decide)).1.mpr
      ⟨[false, true], by decide, by decide, by decide, by decide, by decide⟩,
    (C4_theorem 14 15 4 [[true, false]] 2 2 (by decide)).2.1 (by decide)⟩

/-! ### Claim theorems for cross-variant agreement and the Factor Resolver -/

/-- C3 (counterexample): on the same single-sample input (`b = 2`, `N = 15`,
`q = 4`, one measurement `"10"`, i.e. `y = 2`, candidate period `r = 2`), the
Cirq variant's final validation reports failure (`gcd(2-1, 15) = 1` is a
trivial factor) while the Qiskit variant reports the factor pair `(1, 3)`:
the three variants do not compute identical success/failure decisions. -/
theorem C3_counterexample :
    cirqOutcome 2 15 4 [[true, false]] = ShorsOutcome.trivialFactors
    ∧ qiskitOutcome 2 15 4 [[true, false]] = ShorsOutcome.factors 1 3
    ∧ cirqOutcome 2 15 4 [[true, false]] ≠ qiskitOutcome 2 15 4 [[true, false]] := by
  decide

/-- C3 (amended): given the same ordered list of measurement samples, the
classical post-processing of the three variants agrees through sample
conversion, candidate extraction, validation, frequency aggregation (the
candidate tables are equal as ordered tables), selection and factor
computation; the PyQuil and Qiskit variants compute identical outcomes, and
whenever the Cirq variant reports a factor pair the other two report the same
pair.  Only the final success/failure decision differs: Cirq filters trivial
factor pairs, Qiskit and PyQuil do not. -/
theorem C3_theorem (b N q : ℕ) (ss : List (List Bool)) :
    pyquilCandidateTable b N q ss = qiskitCandidateTable b N q ss
    ∧ qiskitCandidateTable b N q ss = cirqCandidateTable b N q ss
    ∧ pyquilOutcome b N q ss = qiskitOutcome b N q ss
    ∧ (cirqOutcome b N q ss = ShorsOutcome.noCandidate ↔
        qiskitOutcome b N q ss = ShorsOutcome.noCandidate)
    ∧ ∀ f1 f2 : ℕ, cirqOutcome b N q ss = ShorsOutcome.factors f1 f2 →
        qiskitOutcome b N q ss = ShorsOutcome.factors f1 f2 := by
  have htab : qiskitCandidateTable b N q ss = cirqCandidateTable b N q ss :=
    qiskit_table_eq_cirq b N q ss
  refine ⟨rfl, htab, rfl, ?_, ?_⟩
  · unfold cirqOutcome qiskitOutcome
    rw [htab]
    unfold cirqResolve qiskitResolve
    rcases hsel : firstMaxBySnd (cirqCandidateTable b N q ss) with _ | ⟨r, c⟩
    · simp [hsel]
    · simp only [hsel]
      split_ifs <;> simp
  · intro f1 f2 h
    unfold cirqOutcome at h
    unfold cirqResolve at h
    unfold qiskitOutcome
    rw [htab]
    unfold qiskitResolve
    rcases hsel : firstMaxBySnd (cirqCandidateTable b N q ss) with _ | ⟨r, c⟩
    · rw [hsel] at h
      simp at h
    · rw [hsel] at h
      simp only [hsel]
      have h' : (if (factorPair b N r).1 ≠ 1 ∧ (factorPair b N r).1 ≠ N
            ∧ (factorPair b N r).2 ≠ 1 ∧ (factorPair b N r).2 ≠ N
          then ShorsOutcome.factors (factorPair b N r).1 (factorPair b N r).2
          else ShorsOutcome.trivialFactors) = ShorsOutcome.factors f1 f2 := h
      split_ifs at h' with hcond
      exact h'

/-- C3 (witness): the amended theorem applied at `b = 8`, `N = 15`, `q = 4`
with the single sample `"01"`: the tables agree and all variants report the
factor pair `(3, 5)`. -/
theorem C3_witness :
    qiskitCandidateTable 8 15 4 [[false, true]] = cirqCandidateTable 8 15 4 [[false, true]]
    ∧ qiskitOutcome 8 15 4 [[false, true]] = ShorsOutcome.factors 3 5 :=
  ⟨(C3_theorem 8 15 4 [[false, true]]).2.1,
    (C3_theorem 8 15 4 [[false, true]]).2.2.2.2 3 5 (by decide)⟩

/-- C5 (counterexample): the claim "the Factor Resolver reports Failure when a
gcd is trivial" fails for the Qiskit and PyQuil variants: on the nonempty
frequency table `[(2, 1)]` with `b = 2`, `N = 15`, the selected period `2`
gives `m = 2` and `gcd(m-1, N) = 1`, yet both return the pair `(1, 3)` instead
of a failure. -/
theorem C5_counterexample :
    firstMaxBySnd [(2, 1)] = some (2, 1)
    ∧ factorPair 2 15 2 = (1, 3)
    ∧ qiskitResolve 2 15 [(2, 1)] = ShorsOutcome.factors 1 3
    ∧ pyquilResolve 2 15 [(2, 1)] = ShorsOutcome.factors 1 3 := by
  decide

/-- C5 (amended): for every nonempty frequency table, when either component of
the factor pair of the selected period equals `1` or `N`, the Cirq variant's
resolver reports Failure rather than returning the pair; the Qiskit and PyQuil
variants return the trivial pair with no final validation. -/
theorem C5_theorem (b N : ℕ) (t : List (ℕ × ℕ)) (r c : ℕ)
    (hsel : firstMaxBySnd t = some (r, c))
    (htriv : (factorPair b N r).1 = 1 ∨ (factorPair b N r).1 = N
      ∨ (factorPair b N r).2 = 1 ∨ (factorPair b N r).2 = N) :
    cirqResolve b N t = ShorsOutcome.trivialFactors
    ∧ qiskitResolve b N t = ShorsOutcome.factors (factorPair b N r).1 (factorPair b N r).2
    ∧ pyquilResolve b N t = ShorsOutcome.factors (factorPair b N r).1 (factorPair b N r).2 := by
  unfold cirqResolve qiskitResolve pyquilResolve
  rw [hsel]
  refine ⟨?_, rfl, rfl⟩
  show (if _ then _ else _) = _
  rw [if_neg]
  tauto

/-- C5 (witness): the amended theorem applied to the table `[(2, 1)]` with
`b = 2`, `N = 15`. -/
theorem C5_witness :
    cirqResolve 2 15 [(2, 1)] = ShorsOutcome.trivialFactors
    ∧ qiskitResolve 2 15 [(2, 1)] = ShorsOutcome.factors 1 3 :=
  ⟨(C5_theorem 2 15 [(2, 1)] 2 1 (by decide) (by decide)).1,
    (C5_theorem 2 15 [(2, 1)] 2 1 (by decide) (by decide)).2.1⟩

/-! ### Claim theorems for tie-breaking in period selection -/

theorem foldl_max_spec :
    ∀ (t : List (ℕ × ℕ)) (best z : ℕ × ℕ),
      t.foldl (fun b x => if b.2 < x.2 then x else b) best = z →
      (z = best ∧ ∀ x ∈ t, x.2 ≤ best.2)
      ∨ ∃ t1 t2, t = t1 ++ z :: t2 ∧ best.2 < z.2
          ∧ (∀ x ∈ t1, x.2 < z.2) ∧ (∀ x ∈ t2, x.2 ≤ z.2) := by
  intro t
  induction t with
  | nil =>
    intro best z h
    left
    exact ⟨h.symm, by simp⟩
  | cons x t ih =>
    intro best z h
    rw [List.foldl_cons] at h
    by_cases hx : best.2 < x.2
    · rw [if_pos hx] at h
      rcases ih x z h with ⟨hz, hall⟩ | ⟨t1, t2, heq, hlt, h1, h2⟩
      · right
        refine ⟨[], t, by simp [hz], by rw [hz]; exact hx, by simp, ?_⟩
        intro x' hx'
        rw [hz]
        exact hall x' hx'
      · right
        refine ⟨x :: t1, t2, by rw [heq]; rfl, lt_trans hx hlt, ?_, h2⟩
        intro x' hx'
        rcases List.mem_cons.mp hx' with h' | h'
        · rw [h']
          exact hlt
        · exact h1 x' h'
    · rw [if_neg hx] at h
      rcases ih best z h with ⟨hz, hall⟩ | ⟨t1, t2, heq, hlt, h1, h2⟩
      · left
        refine ⟨hz, ?_⟩
        intro x' hx'
        rcases List.mem_cons.mp hx' with h' | h'
        · rw [h']; omega
        · exact hall x' h'
      · right
        refine ⟨x :: t1, t2, by rw [heq]; rfl, hlt, ?_, h2⟩
        intro x' hx'
        rcases List.mem_cons.mp hx' with h' | h'
        · rw [h']; omega
        · exact h1 x' h'

/-- C6 (counterexample): the claim "ties are broken by selecting the smallest
period" fails on the real pipeline: with `b = 8`, `N = 15`, `q = 8` and the
samples `"001"`, `"010"` (values `1` and `2`), the candidate periods `8` and
`4` are tied with one occurrence each, and the selection (`most_common(1)` /
`max(..., key=count)`) returns `8`, not the smaller tied period `4`. -/
theorem C6_counterexample :
    cirqCandidateTable 8 15 8 [[false, false, true], [false, true, false]] = [(8, 1), (4, 1)]
    ∧ firstMaxBySnd [(8, 1), (4, 1)] = some (8, 1)
    ∧ (4, 1) ∈ [(8, 1), (4, 1)] ∧ 4 < 8 := by
  decide

/-- C6 (amended): the selection used by all three variants is deterministic
but breaks ties by insertion order, not by size: the selected entry is the
first entry of the frequency table whose count is maximal — every entry
before it has a strictly smaller count and every entry after it has a count
at most as large. -/
theorem C6_theorem (t : List (ℕ × ℕ)) (p : ℕ × ℕ) (h : firstMaxBySnd t = some p) :
    ∃ t1 t2, t = t1 ++ p :: t2 ∧ (∀ x ∈ t1, x.2 < p.2) ∧ (∀ x ∈ t2, x.2 ≤ p.2) := by
  cases t with
  | nil => simp [firstMaxBySnd] at h
  | cons p0 rest =>
    have hz : rest.foldl (fun b x => if b.2 < x.2 then x else b) p0 = p :=
      Option.some.inj h
    rcases foldl_max_spec rest p0 p hz with ⟨hzp, hall⟩ | ⟨t1, t2, heq, hlt, h1, h2⟩
    · refine ⟨[], rest, by rw [hzp]; rfl, by simp, ?_⟩
      intro x hx
      rw [hzp]
      exact hall x hx
    · refine ⟨p0 :: t1, t2, by rw [heq]; rfl, ?_, h2⟩
      intro x hx
      rcases List.mem_cons.mp hx with h' | h'
      · rw [h']
        exact hlt
      · exact h1 x h'

/-- C6 (witness): the amended theorem applied to the tied table
`[(8, 1), (4, 1)]` and its selected entry `(8, 1)`. -/
theorem C6_witness : (8, 1) ∈ [(8, 1), (4, 1)] := by
  obtain ⟨t1, t2, heq, -, -⟩ := C6_theorem [(8, 1), (4, 1)] (8, 1) (by decide)
  rw [heq]
  exact List.mem_append_right _ (List.mem_cons_self _ _)
